import Mathlib

/-!
Shallow embedding of `src/perplexity/client_pool.py`: the `ClientWrapper`
health-tracking record and the `ClientPool` weighted-round-robin selection and
administration engine.

Modelling conventions:
- Python `time.time()` timestamps are modelled as `Nat` (`now` is passed
  explicitly to the operations that read the clock).
- The Python `dict` `self.clients` is an insertion-ordered list of wrappers
  with unique `id`s; `self._rotation_order` is a list of ids; `self._index`
  is `index`.
- The opaque `Client` credential object is not modelled; where the source
  returns `wrapper.client` the model returns `true` in the credential slot of
  the result, and `none`/`false` where the source returns `None`.
- The admin endpoints return `{"status": ..., "message": ...}` dicts; the
  distinct messages are modelled by the `AdminResult` inductive
  (`"Client '...' exists"` is `duplicateId`, `"... not found"` is `notFound`,
  `"Cannot remove last client"` is `lastMember`,
  `"Cannot disable last enabled client"` is `lastEnabled`, `"ok"` is `ok`).
-/

/-- One entry of the pool: `ClientWrapper` from `client_pool.py` (the opaque
`client` credential field is omitted; `state` is the free-form diagnostic
label). -/
structure ClientWrapper where
  id : String
  weight : Nat
  fail_count : Nat
  available_after : Nat
  request_count : Nat
  enabled : Bool
  state : String
deriving DecidableEq, Repr

/-- `ClientWrapper.DEFAULT_WEIGHT`. -/
def DEFAULT_WEIGHT : Nat := 100
/-- `ClientWrapper.MIN_WEIGHT`. -/
def MIN_WEIGHT : Nat := 10
/-- `ClientWrapper.WEIGHT_DECAY` (defined in the source, never used). -/
def WEIGHT_DECAY : Nat := 10
/-- `ClientWrapper.WEIGHT_RECOVERY`. -/
def WEIGHT_RECOVERY : Nat := 5
/-- `ClientWrapper.INITIAL_BACKOFF` (seconds). -/
def INITIAL_BACKOFF : Nat := 60
/-- `ClientWrapper.MAX_BACKOFF` (seconds). -/
def MAX_BACKOFF : Nat := 3600

namespace ClientWrapper

/-- `ClientWrapper.__init__(client, client_id)`. -/
def init (client_id : String) : ClientWrapper :=
  { id := client_id
    weight := DEFAULT_WEIGHT
    fail_count := 0
    available_after := 0
    request_count := 0
    enabled := true
    state := "unknown" }

/-- `is_available`: `self.enabled and time.time() >= self.available_after`. -/
def is_available (now : Nat) (w : ClientWrapper) : Bool :=
  w.enabled && decide (w.available_after ≤ now)

/-- `mark_failure`: increment `fail_count`, then
`backoff = min(MAX_BACKOFF, INITIAL_BACKOFF * 2 ** (fail_count - 1))` and
`available_after = time.time() + backoff`. -/
def mark_failure (now : Nat) (w : ClientWrapper) : ClientWrapper :=
  let fc := w.fail_count + 1
  let backoff := min MAX_BACKOFF (INITIAL_BACKOFF * 2 ^ (fc - 1))
  { w with fail_count := fc, available_after := now + backoff }

/-- `mark_success`: reset `fail_count` and `available_after`, bump
`request_count`, and recover weight only when it is below the default. -/
def mark_success (w : ClientWrapper) : ClientWrapper :=
  let w1 := { w with fail_count := 0, available_after := 0,
                     request_count := w.request_count + 1 }
  if w1.weight < DEFAULT_WEIGHT then
    { w1 with weight := min DEFAULT_WEIGHT (w1.weight + WEIGHT_RECOVERY) }
  else w1

/-- The successive `available_after` values written by a sequence of
`mark_failure` calls at the given clock readings. -/
def failureTrace (w : ClientWrapper) : List Nat → List Nat
  | [] => []
  | t :: ts => (w.mark_failure t).available_after :: failureTrace (w.mark_failure t) ts

end ClientWrapper

/-- Pool state: `self.clients` (insertion-ordered dict), `self._rotation_order`
and `self._index` from `ClientPool`. -/
structure ClientPool where
  clients : List ClientWrapper
  rotation_order : List String
  index : Nat
deriving DecidableEq, Repr

/-- Outcome of an administrative call, abstracting the status/message dicts
returned by the source (see the module docstring for the message mapping). -/
inductive AdminResult where
  | ok
  | duplicateId
  | notFound
  | lastMember
  | lastEnabled
deriving DecidableEq, Repr

namespace ClientPool

/-- `client_id in self.clients` (dict key membership). -/
def containsClient (p : ClientPool) (cid : String) : Bool :=
  p.clients.any (fun w => w.id == cid)

/-- `self.clients[client_id]` as a partial lookup (`KeyError` is `none`). -/
def findClient (p : ClientPool) (cid : String) : Option ClientWrapper :=
  p.clients.find? (fun w => w.id == cid)

/-- `self.clients[client_id] = wrapper` on an insertion-ordered dict: replace
in place when the key exists, append otherwise. -/
def dictInsert : List ClientWrapper → ClientWrapper → List ClientWrapper
  | [], w => [w]
  | x :: xs, w => if x.id == w.id then w :: xs else x :: dictInsert xs w

/-- `_add_client_internal`: store the fresh wrapper and append the id to the
rotation order. -/
def add_client_internal (p : ClientPool) (cid : String) : ClientPool :=
  { p with clients := dictInsert p.clients (ClientWrapper.init cid)
           rotation_order := p.rotation_order ++ [cid] }

/-- `_initialize` / `_load_from_config`: register a list of ids (in config
order) into the empty pool by repeated `_add_client_internal` calls. -/
def initPool (ids : List String) : ClientPool :=
  ids.foldl add_client_internal { clients := [], rotation_order := [], index := 0 }

/-- The list comprehension in `get_client`:
`[self.clients[cid] for cid in self._rotation_order if self.clients[cid].is_available()]`
(a `cid` absent from the dict would raise `KeyError` in Python; that cannot
happen under the pool invariant, and the model skips it). -/
def availableList (now : Nat) (p : ClientPool) : List ClientWrapper :=
  p.rotation_order.filterMap (fun cid =>
    (p.findClient cid).bind (fun w => if w.is_available now then some w else none))

/-- `max(w.weight for w in available)` over a nonempty list, as a left fold. -/
def maxWeight : List ClientWrapper → Nat
  | [] => 0
  | w :: ws => ws.foldl (fun m x => max m x.weight) w.weight

/-- `top = [w for w in available if w.weight == max_weight]`. -/
def topList (now : Nat) (p : ClientPool) : List ClientWrapper :=
  (p.availableList now).filter
    (fun w => w.weight == maxWeight (p.availableList now))

/-- Python `min(values, key=lambda w: w.available_after)`: scan left to right,
keeping the first element attaining the minimum. -/
def pyMinBy (best : ClientWrapper) : List ClientWrapper → ClientWrapper
  | [] => best
  | x :: xs => pyMinBy (if x.available_after < best.available_after then x else best) xs

/-- The round-robin scan in `get_client`: `for _ in range(len(rotation_order))`
read `rotation_order[index]`, advance `index` by one modulo the length, and
stop at the first id in the tie set. Returns the found id (if any) and the
final cursor value. -/
def rrLoop (ro : List String) (top_ids : List String) : Nat → Nat → Option String × Nat
  | 0, idx => (none, idx)
  | fuel + 1, idx =>
    let cid := ro.getD idx ""
    let idx2 := (idx + 1) % ro.length
    if cid ∈ top_ids then (some cid, idx2)
    else rrLoop ro top_ids fuel idx2

/-- `get_client`: returns `(id?, credential?)` (credential presence modelled as
`Bool`) together with the pool state after the call. -/
def get_client (now : Nat) (p : ClientPool) : (Option String × Bool) × ClientPool :=
  match p.clients with
  | [] => ((none, false), p)
  | c :: cs =>
    match p.availableList now with
    | [] =>
      let soonest := pyMinBy c cs
      ((some soonest.id, false), p)
    | _ :: _ =>
      match p.topList now with
      | [t] => ((some t.id, true), p)
      | _ =>
        let r := rrLoop p.rotation_order ((p.topList now).map (fun w => w.id))
                  p.rotation_order.length p.index
        match r.1 with
        | some cid => ((some cid, true), { p with index := r.2 })
        | none =>
          let soonest := pyMinBy c cs
          ((some soonest.id, false), { p with index := r.2 })

/-- Apply `f` to the entry with key `cid` (in-place mutation of the found
wrapper in the source). -/
def updateClient (cs : List ClientWrapper) (cid : String)
    (f : ClientWrapper → ClientWrapper) : List ClientWrapper :=
  cs.map (fun w => if w.id == cid then f w else w)

/-- `ClientPool.mark_success(client_id)`: update if registered, silently ignore
otherwise. -/
def mark_success (p : ClientPool) (cid : String) : ClientPool :=
  if p.containsClient cid then
    { p with clients := updateClient p.clients cid ClientWrapper.mark_success }
  else p

/-- `ClientPool.mark_failure(client_id)`: update if registered, silently ignore
otherwise. -/
def mark_failure (now : Nat) (p : ClientPool) (cid : String) : ClientPool :=
  if p.containsClient cid then
    { p with clients := updateClient p.clients cid (ClientWrapper.mark_failure now) }
  else p

/-- `add_client`: reject a duplicate id, otherwise `_add_client_internal`. -/
def add_client (p : ClientPool) (cid : String) : AdminResult × ClientPool :=
  if p.containsClient cid then (.duplicateId, p)
  else (.ok, p.add_client_internal cid)

/-- Python `list.remove(x)`: drop the first occurrence. -/
def eraseFirstStr : List String → String → List String
  | [], _ => []
  | x :: xs, cid => if x == cid then xs else x :: eraseFirstStr xs cid

/-- `del self.clients[client_id]`: drop the (unique) entry with that key. -/
def eraseClient : List ClientWrapper → String → List ClientWrapper
  | [], _ => []
  | w :: ws, cid => if w.id == cid then ws else w :: eraseClient ws cid

/-- `remove_client`: `NotFound` if unregistered, `LastMember` if it is the only
handle; otherwise delete from both structures and clamp the cursor to 0 when it
fell out of bounds. -/
def remove_client (p : ClientPool) (cid : String) : AdminResult × ClientPool :=
  if ¬ p.containsClient cid then (.notFound, p)
  else if p.clients.length ≤ 1 then (.lastMember, p)
  else
    let clients2 := eraseClient p.clients cid
    let ro2 := eraseFirstStr p.rotation_order cid
    let idx2 := if ro2.length ≤ p.index then 0 else p.index
    (.ok, { clients := clients2, rotation_order := ro2, index := idx2 })

/-- `enable_client`. -/
def enable_client (p : ClientPool) (cid : String) : AdminResult × ClientPool :=
  if ¬ p.containsClient cid then (.notFound, p)
  else
    let f := fun (w : ClientWrapper) => { w with enabled := true }
    (.ok, { p with clients := updateClient p.clients cid f })

/-- `sum(1 for w in self.clients.values() if w.enabled)`. -/
def enabledCount (p : ClientPool) : Nat :=
  (p.clients.filter (fun w => w.enabled)).length

/-- `disable_client`: `NotFound` if unregistered; `LastEnabled` when at most
one handle in the whole pool is currently enabled (the source counts enabled
handles without looking at the target's own flag). -/
def disable_client (p : ClientPool) (cid : String) : AdminResult × ClientPool :=
  if ¬ p.containsClient cid then (.notFound, p)
  else if p.enabledCount ≤ 1 then (.lastEnabled, p)
  else
    let f := fun (w : ClientWrapper) => { w with enabled := false }
    (.ok, { p with clients := updateClient p.clients cid f })

/-- `reset_client`: `NotFound` if unregistered; otherwise clear `fail_count`
and `available_after` and restore the default weight. -/
def reset_client (p : ClientPool) (cid : String) : AdminResult × ClientPool :=
  if ¬ p.containsClient cid then (.notFound, p)
  else
    let f := fun (w : ClientWrapper) =>
      { w with fail_count := 0, available_after := 0, weight := DEFAULT_WEIGHT }
    (.ok, { p with clients := updateClient p.clients cid f })

/-- Pool invariant: the rotation order and the dict keys are duplicate-free
and denote the same set of ids, the two containers have the same size, and the
cursor is in bounds. -/
def Inv (p : ClientPool) : Prop :=
  p.rotation_order.Nodup ∧
  (p.clients.map (fun w => w.id)).Nodup ∧
  p.rotation_order ⊆ p.clients.map (fun w => w.id) ∧
  p.clients.map (fun w => w.id) ⊆ p.rotation_order ∧
  p.clients.length = p.rotation_order.length ∧
  p.index < p.rotation_order.length

instance (p : ClientPool) : Decidable (Inv p) := by
  unfold Inv; infer_instance

/-- One pool operation, as observed through the public mutating interface. -/
inductive Step : ClientPool → ClientPool → Prop
  | get (now : Nat) (p : ClientPool) : Step p (get_client now p).2
  | msucc (cid : String) (p : ClientPool) : Step p (p.mark_success cid)
  | mfail (now : Nat) (cid : String) (p : ClientPool) : Step p (mark_failure now p cid)
  | add (cid : String) (p : ClientPool) : Step p (p.add_client cid).2
  | remove (cid : String) (p : ClientPool) : Step p (p.remove_client cid).2
  | enable (cid : String) (p : ClientPool) : Step p (p.enable_client cid).2
  | disable (cid : String) (p : ClientPool) : Step p (p.disable_client cid).2
  | reset (cid : String) (p : ClientPool) : Step p (p.reset_client cid).2

/-- States reachable from a constructed pool (a nonempty, duplicate-free config
list: `_initialize` always registers at least one client, and ids in a config
are distinct) by any sequence of pool operations. -/
inductive Reachable : ClientPool → Prop
  | init (ids : List String) (hd : ids.Nodup) (hne : ids ≠ []) :
      Reachable (initPool ids)
  | step {p q : ClientPool} : Reachable p → Step p q → Reachable q

/-- The ids returned by consecutive `get_client` calls, threading the pool
state (in particular the cursor) through each call. -/
def getClientTrace (now : Nat) (p : ClientPool) : Nat → List (Option String)
  | 0 => []
  | n + 1 => (get_client now p).1.1 :: getClientTrace now (get_client now p).2 n

end ClientPool

/-- Example handle `d`: administratively disabled, `available_after = 0`. -/
def wrapperDisabledD : ClientWrapper := { ClientWrapper.init "d" with enabled := false }

/-- Example handle `e`: enabled but in cooldown until time 1000. -/
def wrapperCooldownE : ClientWrapper := { ClientWrapper.init "e" with available_after := 1000 }

/-- Example pool with one disabled handle and one enabled handle in cooldown. -/
def poolDE : ClientPool :=
  { clients := [wrapperDisabledD, wrapperCooldownE]
    rotation_order := ["d", "e"]
    index := 0 }

/-- Example pool: `a` at weight 90, `b` and `c` tied at the maximum weight 100,
all available, cursor at 0. -/
def poolABC : ClientPool :=
  { clients := [{ ClientWrapper.init "a" with weight := 90 },
                ClientWrapper.init "b", ClientWrapper.init "c"]
    rotation_order := ["a", "b", "c"]
    index := 0 }

/-- Example pool with three handles tied at the default weight. -/
def poolXYZ : ClientPool :=
  { clients := [ClientWrapper.init "x", ClientWrapper.init "y", ClientWrapper.init "z"]
    rotation_order := ["x", "y", "z"]
    index := 0 }

/-- The empty pool (the state `get_client` checks for first). -/
def emptyPool : ClientPool := { clients := [], rotation_order := [], index := 0 }

/-! ### Helper lemmas -/

theorem updateClient_map_id (cs : List ClientWrapper) (cid : String)
    (f : ClientWrapper → ClientWrapper) (hf : ∀ w, (f w).id = w.id) :
    (ClientPool.updateClient cs cid f).map (fun w => w.id) = cs.map (fun w => w.id) := by
  unfold ClientPool.updateClient
  rw [List.map_map]
  apply List.map_congr_left
  intro w _
  simp only [Function.comp]
  split <;> simp [hf]

theorem containsClient_iff (p : ClientPool) (cid : String) :
    p.containsClient cid = true ↔ cid ∈ p.clients.map (fun w => w.id) := by
  unfold ClientPool.containsClient
  rw [List.any_eq_true]
  constructor
  · rintro ⟨w, hw, hid⟩
    exact List.mem_map.mpr ⟨w, hw, by simpa using hid⟩
  · intro h
    obtain ⟨w, hw, hid⟩ := List.mem_map.mp h
    exact ⟨w, hw, by simp [hid]⟩

theorem backoff_mono {a b : Nat} (h : a ≤ b) :
    min MAX_BACKOFF (INITIAL_BACKOFF * 2 ^ a) ≤ min MAX_BACKOFF (INITIAL_BACKOFF * 2 ^ b) := by
  have h2 : (2 : Nat) ^ a ≤ 2 ^ b := Nat.pow_le_pow_right (by norm_num) h
  have h3 : INITIAL_BACKOFF * 2 ^ a ≤ INITIAL_BACKOFF * 2 ^ b :=
    Nat.mul_le_mul_left INITIAL_BACKOFF h2
  exact min_le_min (le_refl _) h3

theorem mark_failure_fields (v : ClientWrapper) (t : Nat) :
    (v.mark_failure t).fail_count = v.fail_count + 1 ∧
    (v.mark_failure t).available_after =
      t + min MAX_BACKOFF (INITIAL_BACKOFF * 2 ^ ((v.fail_count + 1) - 1)) := by
  simp [ClientWrapper.mark_failure]

theorem mark_failure_aa_step_mono (v : ClientWrapper) (t t' : Nat) (h : t ≤ t') :
    (v.mark_failure t).available_after ≤
      ((v.mark_failure t).mark_failure t').available_after := by
  simp only [ClientWrapper.mark_failure]
  have := backoff_mono (a := v.fail_count + 1 - 1) (b := v.fail_count + 1 + 1 - 1)
    (by omega)
  omega

theorem failureTrace_chain (w : ClientWrapper) (ts : List Nat)
    (h : ts.Chain' (· ≤ ·)) :
    (ClientWrapper.failureTrace w ts).Chain' (· ≤ ·) := by
  induction ts generalizing w with
  | nil => simp [ClientWrapper.failureTrace]
  | cons t rest ih =>
    cases rest with
    | nil => simp [ClientWrapper.failureTrace]
    | cons t' rest2 =>
      rw [List.chain'_cons] at h
      rw [ClientWrapper.failureTrace, ClientWrapper.failureTrace, List.chain'_cons]
      refine ⟨mark_failure_aa_step_mono w t t' h.1, ?_⟩
      rw [← ClientWrapper.failureTrace]
      exact ih (w.mark_failure t) h.2

/-! ### C3 -/

/-- C3: each `mark_failure` call increments `fail_count` and sets
`available_after` to the current time plus `min 3600 (60 * 2 ^ (fail_count - 1))`
(with the incremented `fail_count`), and over any sequence of calls at
non-decreasing clock readings the successive `available_after` values are
non-decreasing. -/
theorem C3_mark_failure_backoff (w : ClientWrapper) (ts : List Nat)
    (hts : ts.Chain' (· ≤ ·)) :
    (∀ (t : Nat) (v : ClientWrapper),
        (v.mark_failure t).fail_count = v.fail_count + 1 ∧
        (v.mark_failure t).available_after =
          t + min 3600 (60 * 2 ^ ((v.fail_count + 1) - 1))) ∧
    (ClientWrapper.failureTrace w ts).Chain' (· ≤ ·) :=
  ⟨fun t v => mark_failure_fields v t, failureTrace_chain w ts hts⟩

/-- C3 witness: the theorem applied to a fresh handle and the concrete
non-decreasing clock readings `[5, 10, 10]`. -/
theorem C3_mark_failure_backoff_witness :
    ([5, 10, 10] : List Nat).Chain' (· ≤ ·) ∧
    (ClientWrapper.failureTrace (ClientWrapper.init "a") [5, 10, 10]).Chain' (· ≤ ·) :=
  ⟨by simp [List.chain'_cons],
   (C3_mark_failure_backoff (ClientWrapper.init "a") [5, 10, 10]
     (by simp [List.chain'_cons])).2⟩

/-! ### C6 -/

/-- C6: `mark_success()` clears `fail_count` and `available_after`, increments
`request_count` by exactly one, and sets the weight to
`min 100 (previous_weight + 5)`; the weight clause is stated on the data
model's weight range (`weight ≤ DEFAULT_WEIGHT = 100`, which holds in every
reachable handle state). -/
theorem C6_mark_success_effect (w : ClientWrapper) (hw : w.weight ≤ DEFAULT_WEIGHT) :
    w.mark_success.fail_count = 0 ∧
    w.mark_success.available_after = 0 ∧
    w.mark_success.request_count = w.request_count + 1 ∧
    w.mark_success.weight = min 100 (w.weight + 5) := by
  unfold ClientWrapper.mark_success
  unfold DEFAULT_WEIGHT WEIGHT_RECOVERY at *
  by_cases hlt : w.weight < 100
  · simp [hlt]
  · simp [hlt]
    omega

/-- C6 witness: the theorem applied to a handle at weight 80. -/
theorem C6_mark_success_effect_witness :
    ({ ClientWrapper.init "a" with weight := 80 }).weight ≤ DEFAULT_WEIGHT ∧
    ({ ClientWrapper.init "a" with weight := 80 }).mark_success.weight = min 100 (80 + 5) :=
  ⟨by decide,
   (C6_mark_success_effect { ClientWrapper.init "a" with weight := 80 } (by decide)).2.2.2⟩

/-! ### C7 -/

/-- C7: `reset_client` on a registered id succeeds and leaves that handle with
`weight = 100`, `fail_count = 0` and `available_after = 0` regardless of its
prior state; on an unregistered id it fails with `NotFound` and changes
nothing. -/
theorem C7_reset_client (p : ClientPool) (cid : String) :
    (p.containsClient cid = true →
       (p.reset_client cid).1 = AdminResult.ok ∧
       (p.reset_client cid).2.containsClient cid = true ∧
       ∀ w ∈ (p.reset_client cid).2.clients,
         w.id = cid → w.weight = 100 ∧ w.fail_count = 0 ∧ w.available_after = 0) ∧
    (p.containsClient cid = false → p.reset_client cid = (AdminResult.notFound, p)) := by
  constructor
  · intro h
    unfold ClientPool.reset_client
    rw [if_neg (by simp [h])]
    refine ⟨rfl, ?_, ?_⟩
    · rw [containsClient_iff]
      show cid ∈ (ClientPool.updateClient p.clients cid _).map (fun w => w.id)
      rw [updateClient_map_id]
      · exact (containsClient_iff p cid).mp h
      · intro w
        rfl
    · intro w hw hid
      obtain ⟨x, _, hgx⟩ := List.mem_map.mp hw
      by_cases hx : x.id == cid
      · rw [if_pos hx] at hgx
        rw [← hgx]
        exact ⟨rfl, rfl, rfl⟩
      · rw [if_neg hx] at hgx
        rw [← hgx] at hid
        simp [hid] at hx
  · intro h
    unfold ClientPool.reset_client
    rw [if_pos (by simp [h])]

/-- C7 witness: the theorem applied to a concrete pool, at the registered id
`d` and the unregistered id `z`. -/
theorem C7_reset_client_witness :
    (poolDE.containsClient "d" = true ∧ (poolDE.reset_client "d").1 = AdminResult.ok) ∧
    (poolDE.containsClient "z" = false ∧
     poolDE.reset_client "z" = (AdminResult.notFound, poolDE)) :=
  ⟨⟨by decide, ((C7_reset_client poolDE "d").1 (by decide)).1⟩,
   ⟨by decide, (C7_reset_client poolDE "z").2 (by decide)⟩⟩

/-! ### C9 -/

/-- C9: every administrative call that returns a failure outcome (anything
other than `ok`: `DuplicateId`, `NotFound`, `LastMember`, `LastEnabled`)
returns the pool state — members, rotation order, cursor and all handle
fields — exactly as it was. -/
theorem C9_admin_failure_no_mutation (p : ClientPool) (cid : String) :
    ((p.add_client cid).1 ≠ AdminResult.ok → (p.add_client cid).2 = p) ∧
    ((p.remove_client cid).1 ≠ AdminResult.ok → (p.remove_client cid).2 = p) ∧
    ((p.enable_client cid).1 ≠ AdminResult.ok → (p.enable_client cid).2 = p) ∧
    ((p.disable_client cid).1 ≠ AdminResult.ok → (p.disable_client cid).2 = p) ∧
    ((p.reset_client cid).1 ≠ AdminResult.ok → (p.reset_client cid).2 = p) := by
  refine ⟨?_, ?_, ?_, ?_, ?_⟩
  · unfold ClientPool.add_client
    split <;> simp
  · unfold ClientPool.remove_client
    split
    · simp
    · split <;> simp
  · unfold ClientPool.enable_client
    split <;> simp
  · unfold ClientPool.disable_client
    split
    · simp
    · split <;> simp
  · unfold ClientPool.reset_client
    split <;> simp

/-- C9 witness: the theorem applied to a duplicate `add_client` call on a
concrete pool. -/
theorem C9_admin_failure_no_mutation_witness :
    (poolDE.add_client "d").1 ≠ AdminResult.ok ∧ (poolDE.add_client "d").2 = poolDE :=
  ⟨by decide, (C9_admin_failure_no_mutation poolDE "d").1 (by decide)⟩

/-! ### C1 -/

/-- C1 counterexample: in `poolDE` the handle `d` is already disabled and the
other handle `e` is enabled, so disabling `d` would leave one (not zero)
enabled handle; the claim therefore says the call succeeds, yet
`disable_client` fails with `LastEnabled`. -/
theorem C1_disable_counterexample :
    wrapperDisabledD.enabled = false ∧
    wrapperCooldownE.enabled = true ∧
    poolDE.clients = [wrapperDisabledD, wrapperCooldownE] ∧
    (poolDE.disable_client "d").1 = AdminResult.lastEnabled := by decide

/-- C1 amended: for a registered id, `disable_client` fails with `LastEnabled`
iff the pool currently has at most one enabled handle — the guard counts
enabled handles without inspecting the target, so disabling an
already-disabled handle also fails when exactly one other handle is enabled. -/
theorem C1_amended_lastEnabled_iff (p : ClientPool) (cid : String)
    (h : p.containsClient cid = true) :
    ((p.disable_client cid).1 = AdminResult.lastEnabled ↔ p.enabledCount ≤ 1) := by
  unfold ClientPool.disable_client
  rw [if_neg (by simp [h])]
  split <;> simp_all

/-- C1 witness: the amended theorem applied to the registered id `d` of a
concrete pool. -/
theorem C1_amended_lastEnabled_iff_witness :
    poolDE.containsClient "d" = true ∧
    ((poolDE.disable_client "d").1 = AdminResult.lastEnabled ↔ poolDE.enabledCount ≤ 1) :=
  ⟨by decide, C1_amended_lastEnabled_iff poolDE "d" (by decide)⟩

/-! ### C10 -/

/-- C10: with one disabled handle `d` (`available_after = 0`) and one enabled
handle `e` still in cooldown at time 100, `get_client` takes the
soonest-to-recover fallback and returns the id of the disabled handle `d`
with no credential — even though `d`, being disabled, can never become
available on its own at any time. -/
theorem C10_fallback_includes_disabled :
    (ClientPool.get_client 100 poolDE).1 = (some "d", false) ∧
    wrapperDisabledD.enabled = false ∧
    wrapperDisabledD.available_after = 0 ∧
    wrapperCooldownE.enabled = true ∧
    100 < wrapperCooldownE.available_after ∧
    ∀ t : Nat, wrapperDisabledD.is_available t = false := by
  refine ⟨by decide, by decide, by decide, by decide, by decide, ?_⟩
  intro t
  simp [ClientWrapper.is_available, wrapperDisabledD, ClientWrapper.init]

/-! ### C4 -/

theorem pyMinBy_mem (best : ClientWrapper) (l : List ClientWrapper) :
    ClientPool.pyMinBy best l = best ∨ ClientPool.pyMinBy best l ∈ l := by
  induction l generalizing best with
  | nil => exact Or.inl rfl
  | cons x xs ih =>
    rw [ClientPool.pyMinBy]
    rcases ih (if x.available_after < best.available_after then x else best) with h | h
    · rw [h]
      split
      · exact Or.inr (List.mem_cons_self x xs)
      · exact Or.inl rfl
    · exact Or.inr (List.mem_cons_of_mem x h)

theorem pyMinBy_le (best : ClientWrapper) (l : List ClientWrapper) :
    (ClientPool.pyMinBy best l).available_after ≤ best.available_after ∧
    ∀ x ∈ l, (ClientPool.pyMinBy best l).available_after ≤ x.available_after := by
  induction l generalizing best with
  | nil => exact ⟨le_refl _, by simp⟩
  | cons x xs ih =>
    rw [ClientPool.pyMinBy]
    obtain ⟨h1, h2⟩ := ih (if x.available_after < best.available_after then x else best)
    constructor
    · refine le_trans h1 ?_
      split <;> omega
    · intro y hy
      rcases List.mem_cons.mp hy with rfl | hy2
      · refine le_trans h1 ?_
        split <;> omega
      · exact h2 y hy2

/-- C4: `get_client` never errors and degrades in tiers: on the empty pool it
returns no id and no credential; when handles are registered but none is
available it returns `some` id of a handle whose `available_after` is minimal
over all registered handles, paired with no credential — so the no-available
case is distinguished from the empty-pool case by the presence of an id. -/
theorem C4_get_client_degrades (now : Nat) (p : ClientPool) :
    (p.clients = [] → ClientPool.get_client now p = ((none, false), p)) ∧
    (p.clients ≠ [] → p.availableList now = [] →
       ∃ cid w, (ClientPool.get_client now p).1 = (some cid, false) ∧
         w ∈ p.clients ∧ w.id = cid ∧
         ∀ v ∈ p.clients, w.available_after ≤ v.available_after) := by
  constructor
  · intro h
    simp [ClientPool.get_client, h]
  · intro hne hA
    match hc : p.clients with
    | [] => exact absurd hc hne
    | c :: cs =>
      refine ⟨(ClientPool.pyMinBy c cs).id, ClientPool.pyMinBy c cs, ?_, ?_, rfl, ?_⟩
      · simp [ClientPool.get_client, hc, hA]
      · rcases pyMinBy_mem c cs with h | h
        · rw [h]
          exact List.mem_cons_self c cs
        · exact List.mem_cons_of_mem c h
      · intro v hv
        rcases List.mem_cons.mp hv with h | hv2
        · rw [h]
          exact (pyMinBy_le c cs).1
        · exact (pyMinBy_le c cs).2 v hv2

/-- C4 witness: the theorem applied to the empty pool and to a concrete
nonempty pool with no available handle at time 100. -/
theorem C4_get_client_degrades_witness :
    (emptyPool.clients = [] ∧
     ClientPool.get_client 0 emptyPool = ((none, false), emptyPool)) ∧
    (poolDE.clients ≠ [] ∧ poolDE.availableList 100 = [] ∧
     (ClientPool.get_client 100 poolDE).1.2 = false) := by
  refine ⟨⟨rfl, (C4_get_client_degrades 0 emptyPool).1 rfl⟩, by decide, by decide, ?_⟩
  obtain ⟨cid, w, h1, _, _, _⟩ :=
    (C4_get_client_degrades 100 poolDE).2 (by decide) (by decide)
  exact congrArg Prod.snd h1

/-! ### C2 -/

theorem rrLoop_idx_lt (ro top_ids : List String) (fuel : Nat) :
    ∀ idx, idx < ro.length → (ClientPool.rrLoop ro top_ids fuel idx).2 < ro.length := by
  induction fuel with
  | zero => intro idx h; exact h
  | succ n ih =>
    intro idx hidx
    simp only [ClientPool.rrLoop]
    split
    · simpa using Nat.mod_lt _ (show 0 < ro.length by omega)
    · exact ih _ (Nat.mod_lt _ (by omega))

theorem rrLoop_some_spec (ro top_ids : List String) (fuel : Nat) :
    ∀ idx, idx < ro.length → ∀ (cid : String) (idx2 : Nat),
      ClientPool.rrLoop ro top_ids fuel idx = (some cid, idx2) →
      ∃ k, 1 ≤ k ∧ k ≤ fuel ∧ idx2 = (idx + k) % ro.length ∧
        cid = ro.getD ((idx + k - 1) % ro.length) "" ∧ cid ∈ top_ids := by
  induction fuel with
  | zero =>
    intro idx _ cid idx2 h
    simp [ClientPool.rrLoop] at h
  | succ n ih =>
    intro idx hidx cid idx2 h
    simp only [ClientPool.rrLoop] at h
    split at h
    · obtain ⟨h1, h2⟩ := Prod.mk.injEq .. ▸ h
      obtain rfl : ro.getD idx "" = cid := by injection h1
      refine ⟨1, le_refl 1, by omega, h2.symm, ?_, by assumption⟩
      rw [Nat.add_sub_cancel, Nat.mod_eq_of_lt hidx]
    · obtain ⟨k, hk1, hkn, hidx2, hcid, hmem⟩ :=
        ih ((idx + 1) % ro.length) (Nat.mod_lt _ (by omega)) cid idx2 h
      refine ⟨k + 1, by omega, by omega, ?_, ?_, hmem⟩
      · rw [hidx2, Nat.mod_add_mod]
        congr 1
        omega
      · rw [hcid]
        congr 1
        have h3 : (idx + 1) % ro.length + k - 1 = (idx + 1) % ro.length + (k - 1) := by
          omega
        rw [h3, Nat.mod_add_mod]
        congr 1
        omega

theorem rrLoop_none_spec (ro top_ids : List String) (fuel : Nat) :
    ∀ idx, idx < ro.length →
      (ClientPool.rrLoop ro top_ids fuel idx).1 = none →
      ∀ j, j < fuel → ro.getD ((idx + j) % ro.length) "" ∉ top_ids := by
  induction fuel with
  | zero => intro idx _ _ j hj; omega
  | succ n ih =>
    intro idx hidx h j hj
    simp only [ClientPool.rrLoop] at h
    split at h
    · simp at h
    · cases j with
      | zero =>
        rw [Nat.add_zero, Nat.mod_eq_of_lt hidx]
        assumption
      | succ j2 =>
        have hrec := ih ((idx + 1) % ro.length) (Nat.mod_lt _ (by omega)) h j2 (by omega)
        rw [Nat.mod_add_mod] at hrec
        have h4 : idx + 1 + j2 = idx + (j2 + 1) := by omega
        rw [h4] at hrec
        exact hrec

theorem rrLoop_finds (ro top_ids : List String) (idx : Nat) (hidx : idx < ro.length)
    (t : String) (ht : t ∈ top_ids) (htro : t ∈ ro) :
    ∃ cid idx2, ClientPool.rrLoop ro top_ids ro.length idx = (some cid, idx2) := by
  rcases hr : ClientPool.rrLoop ro top_ids ro.length idx with ⟨o, idx2⟩
  cases o with
  | some cid => exact ⟨cid, idx2, rfl⟩
  | none =>
    exfalso
    obtain ⟨pos, hpos, hget⟩ := List.mem_iff_getElem.mp htro
    have hnone := rrLoop_none_spec ro top_ids ro.length idx hidx (by rw [hr])
    have hjlt : (pos + ro.length - idx) % ro.length < ro.length :=
      Nat.mod_lt _ (by omega)
    have hbad := hnone ((pos + ro.length - idx) % ro.length) hjlt
    have hmod : (idx + (pos + ro.length - idx) % ro.length) % ro.length = pos := by
      rw [Nat.add_mod_mod]
      have h5 : idx + (pos + ro.length - idx) = pos + ro.length := by omega
      rw [h5, Nat.add_mod_right, Nat.mod_eq_of_lt hpos]
    rw [hmod] at hbad
    rw [List.getD_eq_getElem ro "" hpos, hget] at hbad
    exact hbad ht

theorem mem_availableList (now : Nat) (p : ClientPool) (w : ClientWrapper)
    (h : w ∈ p.availableList now) :
    w ∈ p.clients ∧ w.id ∈ p.rotation_order ∧ w.is_available now = true := by
  unfold ClientPool.availableList at h
  rw [List.mem_filterMap] at h
  obtain ⟨cid, hcid, hw⟩ := h
  rw [Option.bind_eq_some] at hw
  obtain ⟨v, heq, hw2⟩ := hw
  split at hw2
  · rename_i hav
    obtain rfl : v = w := by injection hw2
    refine ⟨List.mem_of_find?_eq_some heq, ?_, hav⟩
    have hvid := List.find?_some heq
    rw [show ClientWrapper.id _ = cid from by simpa using hvid]
    exact hcid
  · simp at hw2

/-- C2 counterexample: in `poolABC` the handles `b` and `c` are tied at the
maximum weight (so the call takes the tie-break branch), the cursor starts at
0, and the call leaves the cursor at 2 — two steps past its old position, not
one step (`(0 + 1) % 3 = 1`). -/
theorem C2_cursor_counterexample :
    2 ≤ (poolABC.topList 0).length ∧
    poolABC.index = 0 ∧
    poolABC.rotation_order.length = 3 ∧
    (ClientPool.get_client 0 poolABC).2.index = 2 ∧
    (poolABC.index + 1) % poolABC.rotation_order.length = 1 := by decide

/-- C2 amended: under the pool invariant, when more than one available handle
shares the maximum weight the call advances the shared cursor once per scanned
rotation slot until the first tied candidate: the cursor ends `k` steps (mod
the rotation length) past its old position for some `1 ≤ k ≤ length`, one slot
past the returned handle's rotation position — not necessarily exactly one
step. -/
theorem C2_amended_cursor_advance (now : Nat) (p : ClientPool)
    (hInv : ClientPool.Inv p) (htie : 2 ≤ (p.topList now).length) :
    ∃ k, 1 ≤ k ∧ k ≤ p.rotation_order.length ∧
      (ClientPool.get_client now p).2.index = (p.index + k) % p.rotation_order.length ∧
      (ClientPool.get_client now p).1.1 =
        some (p.rotation_order.getD ((p.index + k - 1) % p.rotation_order.length) "") := by
  have hidx : p.index < p.rotation_order.length := hInv.2.2.2.2.2
  obtain ⟨t1, t2, rest2, htl⟩ : ∃ t1 t2 rest2, p.topList now = t1 :: t2 :: rest2 := by
    match h1 : p.topList now with
    | [] => rw [h1] at htie; simp at htie
    | [a] => rw [h1] at htie; simp at htie
    | a :: b :: l2 => exact ⟨a, b, l2, rfl⟩
  have ht1top : t1 ∈ p.topList now := by
    rw [htl]; exact List.mem_cons_self _ _
  have ht1av : t1 ∈ p.availableList now := by
    have h5 : t1 ∈ (p.availableList now).filter
        (fun w => w.weight == ClientPool.maxWeight (p.availableList now)) := ht1top
    exact List.mem_of_mem_filter h5
  obtain ⟨ht1cl, ht1ro, _⟩ := mem_availableList now p t1 ht1av
  obtain ⟨c, cs, hc⟩ : ∃ c cs, p.clients = c :: cs := by
    cases h3 : p.clients with
    | nil => rw [h3] at ht1cl; simp at ht1cl
    | cons c cs => exact ⟨c, cs, rfl⟩
  obtain ⟨a, as2, hA⟩ : ∃ a as2, p.availableList now = a :: as2 := by
    cases h4 : p.availableList now with
    | nil => rw [h4] at ht1av; simp at ht1av
    | cons a as2 => exact ⟨a, as2, rfl⟩
  obtain ⟨cid, idx2, hloop⟩ :=
    rrLoop_finds p.rotation_order ((t1 :: t2 :: rest2).map (fun w => w.id))
      p.index hidx t1.id (List.mem_map.mpr ⟨t1, List.mem_cons_self _ _, rfl⟩) ht1ro
  have hgc : ClientPool.get_client now p = ((some cid, true), { p with index := idx2 }) := by
    simp only [ClientPool.get_client, hc, hA, htl, hloop]
  obtain ⟨k, hk1, hkfuel, hidx2, hcid, _⟩ :=
    rrLoop_some_spec p.rotation_order ((t1 :: t2 :: rest2).map (fun w => w.id))
      p.rotation_order.length p.index hidx cid idx2 hloop
  refine ⟨k, hk1, hkfuel, ?_, ?_⟩
  · rw [hgc]
    exact hidx2
  · rw [hgc]
    simpa using congrArg some hcid

/-- C2 witness: the amended theorem applied to `poolABC` at time 0; the pinned
advance count is `k = 2` and the returned handle is `b`. -/
theorem C2_amended_cursor_advance_witness :
    (ClientPool.get_client 0 poolABC).1.1 = some "b" := by
  obtain ⟨k, hk1, hk3, hidxeq, hret⟩ :=
    C2_amended_cursor_advance 0 poolABC (by decide) (by decide)
  have hlen : poolABC.rotation_order.length = 3 := by decide
  have hidx0 : poolABC.index = 0 := by decide
  rw [hlen] at hk3 hidxeq hret
  rw [hidx0] at hidxeq hret
  have hval : (ClientPool.get_client 0 poolABC).2.index = 2 := by decide
  rw [hval] at hidxeq
  have hk : k = 2 := by omega
  rw [hk] at hret
  rw [hret]
  decide

/-! ### C5 -/

theorem foldl_max_const (W : Nat) (l : List ClientWrapper)
    (hl : ∀ x ∈ l, x.weight = W) :
    l.foldl (fun m x => max m x.weight) W = W := by
  induction l with
  | nil => rfl
  | cons x xs ih =>
    rw [List.foldl_cons, hl x (List.mem_cons_self _ _), max_self]
    exact ih (fun y hy => hl y (List.mem_cons_of_mem _ hy))

theorem maxWeight_const (W : Nat) (l : List ClientWrapper)
    (hl : ∀ w ∈ l, w.weight = W) (hne : l ≠ []) :
    ClientPool.maxWeight l = W := by
  cases l with
  | nil => exact absurd rfl hne
  | cons w ws =>
    rw [ClientPool.maxWeight, hl w (List.mem_cons_self _ _)]
    exact foldl_max_const W ws (fun y hy => hl y (List.mem_cons_of_mem _ hy))

theorem availableList_all_ids (now : Nat) (p : ClientPool) (ro2 : List String)
    (hsub : ∀ cid ∈ ro2, cid ∈ p.clients.map (fun w => w.id))
    (havail : ∀ w ∈ p.clients, w.is_available now = true) :
    (ro2.filterMap (fun cid =>
        (p.findClient cid).bind
          (fun w => if w.is_available now then some w else none))).map (fun w => w.id)
      = ro2 := by
  induction ro2 with
  | nil => rfl
  | cons cid rest ih =>
    obtain ⟨v, hv⟩ : ∃ v, p.findClient cid = some v := by
      obtain ⟨w, hw, hid⟩ := List.mem_map.mp (hsub cid (List.mem_cons_self _ _))
      have h6 : (p.clients.find? (fun w => w.id == cid)).isSome := by
        rw [List.find?_isSome]
        exact ⟨w, hw, by simp [hid]⟩
      exact Option.isSome_iff_exists.mp h6
    have hvav : v.is_available now = true := havail v (List.mem_of_find?_eq_some hv)
    have hvid : v.id = cid := by simpa using List.find?_some hv
    rw [List.filterMap_cons]
    simp only [hv, Option.some_bind, hvav, if_true, List.map_cons]
    rw [hvid, ih (fun c hc => hsub c (List.mem_cons_of_mem _ hc))]

theorem availableList_map_id (now : Nat) (p : ClientPool)
    (hsub : p.rotation_order ⊆ p.clients.map (fun w => w.id))
    (havail : ∀ w ∈ p.clients, w.is_available now = true) :
    (p.availableList now).map (fun w => w.id) = p.rotation_order :=
  availableList_all_ids now p p.rotation_order (fun _ hc => hsub hc) havail

theorem topList_all_tied (now : Nat) (p : ClientPool) (W : Nat)
    (hsub : p.rotation_order ⊆ p.clients.map (fun w => w.id))
    (havail : ∀ w ∈ p.clients, w.is_available now = true)
    (hW : ∀ w ∈ p.clients, w.weight = W)
    (hne : p.rotation_order ≠ []) :
    p.topList now = p.availableList now := by
  have hids := availableList_map_id now p hsub havail
  have hA_ne : p.availableList now ≠ [] := by
    intro h
    rw [h] at hids
    exact hne hids.symm
  have hmax : ClientPool.maxWeight (p.availableList now) = W :=
    maxWeight_const W _
      (fun x hx => hW x (mem_availableList now p x hx).1) hA_ne
  unfold ClientPool.topList
  apply List.filter_eq_self.mpr
  intro w hw
  rw [hmax, hW w (mem_availableList now p w hw).1]
  simp

theorem rrLoop_hit (ro tids : List String) (fuel idx : Nat) (hfuel : 1 ≤ fuel)
    (hhit : ro.getD idx "" ∈ tids) :
    ClientPool.rrLoop ro tids fuel idx =
      (some (ro.getD idx ""), (idx + 1) % ro.length) := by
  match fuel, hfuel with
  | fuel2 + 1, _ =>
    simp only [ClientPool.rrLoop]
    rw [if_pos hhit]

/-- Single-step behaviour of `get_client` when every registered handle is
available and all weights are tied: the handle at the cursor's rotation slot
is returned and the cursor advances one slot. -/
theorem get_client_all_tied (now : Nat) (p : ClientPool) (W : Nat)
    (hInv : ClientPool.Inv p)
    (havail : ∀ w ∈ p.clients, w.is_available now = true)
    (hW : ∀ w ∈ p.clients, w.weight = W) :
    ClientPool.get_client now p =
      ((some (p.rotation_order.getD p.index ""), true),
       { p with index := (p.index + 1) % p.rotation_order.length }) := by
  have hidx : p.index < p.rotation_order.length := hInv.2.2.2.2.2
  have hro_ne : p.rotation_order ≠ [] := by
    intro h
    rw [h] at hidx
    simp at hidx
  have hids : (p.availableList now).map (fun w => w.id) = p.rotation_order :=
    availableList_map_id now p hInv.2.2.1 havail
  have htop : p.topList now = p.availableList now :=
    topList_all_tied now p W hInv.2.2.1 havail hW hro_ne
  cases hA : p.availableList now with
  | nil =>
    rw [hA] at hids
    exact absurd hids.symm hro_ne
  | cons a as2 =>
    have hamem : a ∈ p.clients := (mem_availableList now p a (by rw [hA]; simp)).1
    obtain ⟨c, cs, hc⟩ : ∃ c cs, p.clients = c :: cs := by
      cases h3 : p.clients with
      | nil => rw [h3] at hamem; simp at hamem
      | cons c cs => exact ⟨c, cs, rfl⟩
    cases as2 with
    | nil =>
      have hro : p.rotation_order = [a.id] := by
        rw [← hids, hA]
        rfl
      have hidx0 : p.index = 0 := by
        rw [hro] at hidx
        simpa using hidx
      have htl : p.topList now = [a] := by rw [htop, hA]
      simp only [ClientPool.get_client, hc, hA, htl]
      have hgetd : p.rotation_order.getD p.index "" = a.id := by
        rw [hro, hidx0]
        rfl
      have hmod : (p.index + 1) % p.rotation_order.length = p.index := by
        rw [hro, hidx0]
        simp
      rw [hgetd, hmod, ← hc]
    | cons b rest =>
      have htl : p.topList now = a :: b :: rest := by rw [htop, hA]
      have hhead : p.rotation_order.getD p.index "" ∈
          (a :: b :: rest).map (fun w => w.id) := by
        have h8 : (a :: b :: rest).map (fun w => w.id) = p.rotation_order := by
          rw [← hids, hA]
        rw [h8]
        rw [List.getD_eq_getElem p.rotation_order "" hidx]
        exact List.getElem_mem _
      have hloop := rrLoop_hit p.rotation_order ((a :: b :: rest).map (fun w => w.id))
        p.rotation_order.length p.index (by omega) hhead
      simp only [ClientPool.get_client, hc, hA, htl, hloop]

theorem getClientTrace_all_tied (now W : Nat) :
    ∀ (k : Nat) (p : ClientPool), ClientPool.Inv p →
      (∀ w ∈ p.clients, w.is_available now = true) →
      (∀ w ∈ p.clients, w.weight = W) →
      ClientPool.getClientTrace now p k =
        (List.range k).map
          (fun i => some (p.rotation_order.getD
            ((p.index + i) % p.rotation_order.length) "")) := by
  intro k
  induction k with
  | zero =>
    intro p _ _ _
    rfl
  | succ k ih =>
    intro p hInv havail hW
    have hidx : p.index < p.rotation_order.length := hInv.2.2.2.2.2
    have hstep := get_client_all_tied now p W hInv havail hW
    have hInv2 : ClientPool.Inv
        { p with index := (p.index + 1) % p.rotation_order.length } :=
      ⟨hInv.1, hInv.2.1, hInv.2.2.1, hInv.2.2.2.1, hInv.2.2.2.2.1,
       Nat.mod_lt _ (by omega)⟩
    rw [ClientPool.getClientTrace, hstep]
    rw [ih { p with index := (p.index + 1) % p.rotation_order.length } hInv2 havail hW]
    rw [List.range_succ_eq_map, List.map_cons, List.map_map]
    congr 1
    · simp [Nat.mod_eq_of_lt hidx]
    · apply List.map_congr_left
      intro i _
      simp only [Function.comp]
      have harg : ((p.index + 1) % p.rotation_order.length + i)
            % p.rotation_order.length
          = (p.index + Nat.succ i) % p.rotation_order.length := by
        rw [Nat.mod_add_mod]
        congr 1
        omega
      show some (p.rotation_order.getD (((p.index + 1) % p.rotation_order.length + i)
          % p.rotation_order.length) "") = _
      rw [harg]

theorem range_map_getD_eq_rotate (l : List String) (idx : Nat)
    (hidx : idx < l.length) :
    (List.range l.length).map (fun i => l.getD ((idx + i) % l.length) "")
      = l.rotate idx := by
  apply List.ext_getElem
  · simp
  · intro i h1 h2
    simp only [List.getElem_map, List.getElem_range, List.getElem_rotate]
    rw [List.getD_eq_getElem l "" (Nat.mod_lt _ (by omega))]
    exact getElem_congr (by rw [Nat.add_comm idx i])

theorem get_client_single_top (now : Nat) (q : ClientPool) (t : ClientWrapper)
    (h : q.topList now = [t]) :
    (ClientPool.get_client now q).1 = (some t.id, true) := by
  have htav : t ∈ q.availableList now := by
    have h5 : t ∈ (q.availableList now).filter
        (fun w => w.weight == ClientPool.maxWeight (q.availableList now)) := by
      show t ∈ q.topList now
      rw [h]
      exact List.mem_cons_self _ _
    exact List.mem_of_mem_filter h5
  have htcl : t ∈ q.clients := (mem_availableList now q t htav).1
  obtain ⟨c, cs, hc⟩ : ∃ c cs, q.clients = c :: cs := by
    cases h3 : q.clients with
    | nil => rw [h3] at htcl; simp at htcl
    | cons c cs => exact ⟨c, cs, rfl⟩
  obtain ⟨a, as2, hA⟩ : ∃ a as2, q.availableList now = a :: as2 := by
    cases h4 : q.availableList now with
    | nil => rw [h4] at htav; simp at htav
    | cons a as2 => exact ⟨a, as2, rfl⟩
  simp only [ClientPool.get_client, hc, hA, h]

/-- C5: when every registered handle is available and all carry the same
(maximum) weight, the next `length rotation_order` calls to `get_client`
return exactly the rotation order rotated to start at the cursor — each handle
once (a permutation of the rotation order) before any repeats; and whenever
the tie set of available maximum-weight handles is a single handle,
`get_client` returns that handle with its credential. -/
theorem C5_round_robin (now : Nat) (p : ClientPool) (W : Nat)
    (hInv : ClientPool.Inv p)
    (havail : ∀ w ∈ p.clients, w.is_available now = true)
    (hW : ∀ w ∈ p.clients, w.weight = W) :
    (ClientPool.getClientTrace now p p.rotation_order.length =
       (p.rotation_order.rotate p.index).map some ∧
     (ClientPool.getClientTrace now p p.rotation_order.length).Perm
       (p.rotation_order.map some)) ∧
    ∀ (q : ClientPool) (t : ClientWrapper), q.topList now = [t] →
      (ClientPool.get_client now q).1 = (some t.id, true) := by
  have hidx : p.index < p.rotation_order.length := hInv.2.2.2.2.2
  have htr := getClientTrace_all_tied now W p.rotation_order.length p hInv havail hW
  have hrot := range_map_getD_eq_rotate p.rotation_order p.index hidx
  have heq : ClientPool.getClientTrace now p p.rotation_order.length =
      (p.rotation_order.rotate p.index).map some := by
    rw [htr, ← hrot, List.map_map]
    rfl
  refine ⟨⟨heq, ?_⟩, fun q t ht => get_client_single_top now q t ht⟩
  rw [heq]
  exact (List.rotate_perm p.rotation_order p.index).map some

/-- C5 witness: three handles tied at weight 100, all available, cursor at 0 —
the first three calls return `x`, `y`, `z` in rotation order. -/
theorem C5_round_robin_witness :
    ClientPool.getClientTrace 0 poolXYZ 3 = [some "x", some "y", some "z"] := by
  have h := (C5_round_robin 0 poolXYZ 100 (by decide) (by decide) (by decide)).1.1
  have h2 : (poolXYZ.rotation_order.rotate poolXYZ.index).map some
      = [some "x", some "y", some "z"] := by decide
  exact h.trans h2

/-! ### C8 -/

theorem containsClient_false_iff (p : ClientPool) (cid : String) :
    p.containsClient cid = false ↔ cid ∉ p.clients.map (fun w => w.id) := by
  rw [← containsClient_iff]
  cases h : p.containsClient cid <;> simp

theorem dictInsert_of_not_mem (cs : List ClientWrapper) (w : ClientWrapper)
    (h : w.id ∉ cs.map (fun x => x.id)) :
    ClientPool.dictInsert cs w = cs ++ [w] := by
  induction cs with
  | nil => rfl
  | cons x xs ih =>
    simp only [List.map_cons, List.mem_cons, not_or] at h
    rw [ClientPool.dictInsert, if_neg (by simp; exact fun hh => h.1 hh.symm)]
    rw [ih h.2]
    rfl

theorem eraseFirstStr_sublist (l : List String) (cid : String) :
    List.Sublist (ClientPool.eraseFirstStr l cid) l := by
  induction l with
  | nil => exact List.Sublist.refl _
  | cons x xs ih =>
    rw [ClientPool.eraseFirstStr]
    split
    · exact List.sublist_cons_self x xs
    · exact List.Sublist.cons₂ x ih

theorem eraseFirstStr_length (l : List String) (cid : String) (h : cid ∈ l) :
    (ClientPool.eraseFirstStr l cid).length + 1 = l.length := by
  induction l with
  | nil => simp at h
  | cons x xs ih =>
    rw [ClientPool.eraseFirstStr]
    split
    · simp
    · rename_i hx
      have h2 : cid ∈ xs := by
        rcases List.mem_cons.mp h with h1 | h1
        · exact absurd (by simp [h1]) hx
        · exact h1
      simp only [List.length_cons]
      rw [← ih h2]

theorem eraseFirstStr_mem (cid x : String) :
    ∀ (l : List String), l.Nodup →
      (x ∈ ClientPool.eraseFirstStr l cid ↔ x ∈ l ∧ x ≠ cid) := by
  intro l
  induction l with
  | nil => intro _; simp [ClientPool.eraseFirstStr]
  | cons y ys ih =>
    intro hnd
    rw [List.nodup_cons] at hnd
    rw [ClientPool.eraseFirstStr]
    split
    · rename_i hy
      have hy2 : y = cid := by simpa using hy
      subst hy2
      constructor
      · intro hx
        refine ⟨List.mem_cons_of_mem _ hx, ?_⟩
        intro hxc
        subst hxc
        exact hnd.1 hx
      · rintro ⟨hx, hxc⟩
        rcases List.mem_cons.mp hx with h1 | h1
        · exact absurd h1 hxc
        · exact h1
    · rename_i hy
      have hy2 : y ≠ cid := by simpa using hy
      rw [List.mem_cons, ih hnd.2, List.mem_cons]
      constructor
      · rintro (h1 | ⟨h1, h2⟩)
        · exact ⟨Or.inl h1, by rw [h1]; exact hy2⟩
        · exact ⟨Or.inr h1, h2⟩
      · rintro ⟨h1 | h1, h2⟩
        · exact Or.inl h1
        · exact Or.inr ⟨h1, h2⟩

theorem eraseClient_map_id (cs : List ClientWrapper) (cid : String) :
    (ClientPool.eraseClient cs cid).map (fun w => w.id)
      = ClientPool.eraseFirstStr (cs.map (fun w => w.id)) cid := by
  induction cs with
  | nil => rfl
  | cons w ws ih =>
    rw [ClientPool.eraseClient, List.map_cons, ClientPool.eraseFirstStr]
    by_cases h : (w.id == cid) = true
    · rw [if_pos h, if_pos h]
    · rw [if_neg h, if_neg h, List.map_cons, ih]

theorem Inv_clients_congr (p : ClientPool) (cs2 : List ClientWrapper)
    (hids : cs2.map (fun w => w.id) = p.clients.map (fun w => w.id))
    (hInv : ClientPool.Inv p) :
    ClientPool.Inv { p with clients := cs2 } := by
  obtain ⟨h1, h2, h3, h4, h5, h6⟩ := hInv
  have hlen : cs2.length = p.clients.length := by
    have h7 := congrArg List.length hids
    simpa using h7
  refine ⟨h1, ?_, ?_, ?_, ?_, h6⟩
  · show (cs2.map (fun w => w.id)).Nodup
    rw [hids]
    exact h2
  · show p.rotation_order ⊆ cs2.map (fun w => w.id)
    rw [hids]
    exact h3
  · show cs2.map (fun w => w.id) ⊆ p.rotation_order
    rw [hids]
    exact h4
  · show cs2.length = p.rotation_order.length
    rw [hlen]
    exact h5

theorem mark_success_id (w : ClientWrapper) : w.mark_success.id = w.id := by
  unfold ClientWrapper.mark_success
  by_cases hlt : w.weight < DEFAULT_WEIGHT
  · simp [hlt]
  · simp [hlt]

theorem Inv_mark_success (p : ClientPool) (cid : String)
    (h : ClientPool.Inv p) : ClientPool.Inv (p.mark_success cid) := by
  unfold ClientPool.mark_success
  split
  · exact Inv_clients_congr p _
      (updateClient_map_id p.clients cid _ (fun w => mark_success_id w)) h
  · exact h

theorem Inv_mark_failure (now : Nat) (p : ClientPool) (cid : String)
    (h : ClientPool.Inv p) : ClientPool.Inv (ClientPool.mark_failure now p cid) := by
  unfold ClientPool.mark_failure
  split
  · exact Inv_clients_congr p _
      (updateClient_map_id p.clients cid _ (fun w => rfl)) h
  · exact h

theorem Inv_enable_client (p : ClientPool) (cid : String)
    (h : ClientPool.Inv p) : ClientPool.Inv (p.enable_client cid).2 := by
  unfold ClientPool.enable_client
  split
  · exact h
  · exact Inv_clients_congr p _
      (updateClient_map_id p.clients cid _ (fun w => rfl)) h

theorem Inv_disable_client (p : ClientPool) (cid : String)
    (h : ClientPool.Inv p) : ClientPool.Inv (p.disable_client cid).2 := by
  unfold ClientPool.disable_client
  split
  · exact h
  · split
    · exact h
    · exact Inv_clients_congr p _
        (updateClient_map_id p.clients cid _ (fun w => rfl)) h

theorem Inv_reset_client (p : ClientPool) (cid : String)
    (h : ClientPool.Inv p) : ClientPool.Inv (p.reset_client cid).2 := by
  unfold ClientPool.reset_client
  split
  · exact h
  · exact Inv_clients_congr p _
      (updateClient_map_id p.clients cid _ (fun w => rfl)) h

theorem Inv_get_client (now : Nat) (p : ClientPool)
    (h : ClientPool.Inv p) : ClientPool.Inv (ClientPool.get_client now p).2 := by
  unfold ClientPool.get_client
  split
  · exact h
  · split
    · exact h
    · split
      · exact h
      · simp only []
        split
        · exact ⟨h.1, h.2.1, h.2.2.1, h.2.2.2.1, h.2.2.2.2.1,
            rrLoop_idx_lt _ _ _ _ h.2.2.2.2.2⟩
        · exact ⟨h.1, h.2.1, h.2.2.1, h.2.2.2.1, h.2.2.2.2.1,
            rrLoop_idx_lt _ _ _ _ h.2.2.2.2.2⟩

theorem Inv_add_client (p : ClientPool) (cid : String)
    (h : ClientPool.Inv p) : ClientPool.Inv (p.add_client cid).2 := by
  unfold ClientPool.add_client
  split
  · exact h
  · rename_i hc
    have hfalse : p.containsClient cid = false := by
      cases hcc : p.containsClient cid
      · rfl
      · exact absurd hcc hc
    have hnotmem : cid ∉ p.clients.map (fun w => w.id) :=
      (containsClient_false_iff p cid).mp hfalse
    obtain ⟨h1, h2, h3, h4, h5, h6⟩ := h
    have hcid_ro : cid ∉ p.rotation_order := fun hin => hnotmem (h3 hin)
    unfold ClientPool.add_client_internal
    rw [dictInsert_of_not_mem _ _ (by simpa [ClientWrapper.init] using hnotmem)]
    refine ⟨?_, ?_, ?_, ?_, ?_, ?_⟩
    · show (p.rotation_order ++ [cid]).Nodup
      rw [List.nodup_append]
      exact ⟨h1, List.nodup_singleton cid,
        fun x hx => by simp; intro hxc; exact hcid_ro (hxc ▸ hx)⟩
    · show ((p.clients ++ [ClientWrapper.init cid]).map (fun w => w.id)).Nodup
      rw [List.map_append]
      rw [List.nodup_append]
      refine ⟨h2, by simp, ?_⟩
      intro x hx
      simp [ClientWrapper.init]
      intro hxc
      exact hnotmem (hxc ▸ hx)
    · show p.rotation_order ++ [cid] ⊆ (p.clients ++ [ClientWrapper.init cid]).map (fun w => w.id)
      rw [List.map_append, List.append_subset]
      constructor
      · exact h3.trans (List.subset_append_left _ _)
      · simp [ClientWrapper.init]
    · show (p.clients ++ [ClientWrapper.init cid]).map (fun w => w.id) ⊆ p.rotation_order ++ [cid]
      rw [List.map_append, List.append_subset]
      constructor
      · exact h4.trans (List.subset_append_left _ _)
      · simp [ClientWrapper.init]
    · show (p.clients ++ [ClientWrapper.init cid]).length = (p.rotation_order ++ [cid]).length
      simp [h5]
    · show p.index < (p.rotation_order ++ [cid]).length
      simp
      omega

theorem Inv_remove_client (p : ClientPool) (cid : String)
    (h : ClientPool.Inv p) : ClientPool.Inv (p.remove_client cid).2 := by
  unfold ClientPool.remove_client
  split
  · exact h
  · split
    · exact h
    · rename_i hcne hlen
      have hcont : p.containsClient cid = true := by
        cases hcc : p.containsClient cid
        · exact absurd (by rw [hcc]; simp) hcne
        · rfl
      have hcid_ids : cid ∈ p.clients.map (fun w => w.id) :=
        (containsClient_iff p cid).mp hcont
      obtain ⟨h1, h2, h3, h4, h5, h6⟩ := h
      have hcid_ro : cid ∈ p.rotation_order := h4 hcid_ids
      have hids2 : (ClientPool.eraseClient p.clients cid).map (fun w => w.id)
          = ClientPool.eraseFirstStr (p.clients.map (fun w => w.id)) cid :=
        eraseClient_map_id p.clients cid
      have hro2_len : (ClientPool.eraseFirstStr p.rotation_order cid).length + 1
          = p.rotation_order.length := eraseFirstStr_length _ _ hcid_ro
      have hids2_len : (ClientPool.eraseFirstStr (p.clients.map (fun w => w.id)) cid).length + 1
          = (p.clients.map (fun w => w.id)).length := eraseFirstStr_length _ _ hcid_ids
      have hcl_ge2 : 2 ≤ p.clients.length := by omega
      refine ⟨?_, ?_, ?_, ?_, ?_, ?_⟩
      · exact (eraseFirstStr_sublist _ _).nodup h1
      · show ((ClientPool.eraseClient p.clients cid).map (fun w => w.id)).Nodup
        rw [hids2]
        exact (eraseFirstStr_sublist _ _).nodup h2
      · show ClientPool.eraseFirstStr p.rotation_order cid ⊆
          (ClientPool.eraseClient p.clients cid).map (fun w => w.id)
        intro x hx
        rw [hids2, eraseFirstStr_mem cid x _ h2]
        rw [eraseFirstStr_mem cid x _ h1] at hx
        exact ⟨h3 hx.1, hx.2⟩
      · show (ClientPool.eraseClient p.clients cid).map (fun w => w.id) ⊆
          ClientPool.eraseFirstStr p.rotation_order cid
        intro x hx
        rw [hids2, eraseFirstStr_mem cid x _ h2] at hx
        rw [eraseFirstStr_mem cid x _ h1]
        exact ⟨h4 hx.1, hx.2⟩
      · show (ClientPool.eraseClient p.clients cid).length
          = (ClientPool.eraseFirstStr p.rotation_order cid).length
        have h7 : (ClientPool.eraseClient p.clients cid).length
            = ((ClientPool.eraseClient p.clients cid).map (fun w => w.id)).length := by
          simp
        rw [h7, hids2]
        have h8 : (p.clients.map (fun w => w.id)).length = p.clients.length := by simp
        omega
      · show (if (ClientPool.eraseFirstStr p.rotation_order cid).length ≤ p.index
            then 0 else p.index) < (ClientPool.eraseFirstStr p.rotation_order cid).length
        split
        · omega
        · omega

theorem foldl_add_internal (ids : List String) :
    ∀ (p : ClientPool), ids.Nodup →
      (∀ cid ∈ ids, cid ∉ p.clients.map (fun w => w.id)) →
      ids.foldl ClientPool.add_client_internal p =
        { clients := p.clients ++ ids.map ClientWrapper.init,
          rotation_order := p.rotation_order ++ ids,
          index := p.index } := by
  induction ids with
  | nil =>
    intro p _ _
    simp
  | cons cid rest ih =>
    intro p hnd hfresh
    rw [List.foldl_cons]
    have hf1 : cid ∉ p.clients.map (fun w => w.id) :=
      hfresh cid (List.mem_cons_self _ _)
    have hins : ClientPool.add_client_internal p cid =
        { clients := p.clients ++ [ClientWrapper.init cid],
          rotation_order := p.rotation_order ++ [cid], index := p.index } := by
      unfold ClientPool.add_client_internal
      rw [dictInsert_of_not_mem _ _ (by simpa [ClientWrapper.init] using hf1)]
    rw [hins]
    rw [List.nodup_cons] at hnd
    rw [ih _ hnd.2 ?fresh2]
    case fresh2 =>
      intro c hc
      show c ∉ (p.clients ++ [ClientWrapper.init cid]).map (fun w => w.id)
      rw [List.map_append]
      simp only [List.mem_append, not_or]
      constructor
      · exact hfresh c (List.mem_cons_of_mem _ hc)
      · simp [ClientWrapper.init]
        intro hceq
        exact hnd.1 (hceq ▸ hc)
    simp

theorem Inv_initPool (ids : List String) (hnd : ids.Nodup) (hne : ids ≠ []) :
    ClientPool.Inv (ClientPool.initPool ids) := by
  unfold ClientPool.initPool
  rw [foldl_add_internal ids _ hnd (by simp)]
  have hmapid : (ids.map ClientWrapper.init).map (fun w => w.id) = ids := by
    rw [List.map_map]
    rw [show ((fun w => w.id) ∘ ClientWrapper.init) = fun cid : String => cid from rfl]
    exact List.map_id ids
  have hpos : 0 < ids.length := List.length_pos.mpr hne
  refine ⟨hnd, ?_, ?_, ?_, ?_, hpos⟩
  · show ((ids.map ClientWrapper.init).map (fun w => w.id)).Nodup
    rw [hmapid]
    exact hnd
  · show ids ⊆ (ids.map ClientWrapper.init).map (fun w => w.id)
    rw [hmapid]
    exact List.Subset.refl ids
  · show (ids.map ClientWrapper.init).map (fun w => w.id) ⊆ ids
    rw [hmapid]
    exact List.Subset.refl ids
  · show (ids.map ClientWrapper.init).length = ids.length
    simp

/-- C8: in every pool state reachable from a constructed pool by any sequence
of the public operations (`get_client`, `mark_success`, `mark_failure`,
`add_client`, `remove_client`, `enable_client`, `disable_client`,
`reset_client`), the rotation order and the members' keys are duplicate-free
and denote exactly the same set of ids (same size), and the cursor index is in
bounds of the rotation order. -/
theorem C8_reachable_invariant (p : ClientPool) (h : ClientPool.Reachable p) :
    ClientPool.Inv p := by
  induction h with
  | init ids hd hne => exact Inv_initPool ids hd hne
  | @step p2 q2 hr hs ih =>
    cases hs with
    | get now _ => exact Inv_get_client now p2 ih
    | msucc cid _ => exact Inv_mark_success p2 cid ih
    | mfail now cid _ => exact Inv_mark_failure now p2 cid ih
    | add cid _ => exact Inv_add_client p2 cid ih
    | remove cid _ => exact Inv_remove_client p2 cid ih
    | enable cid _ => exact Inv_enable_client p2 cid ih
    | disable cid _ => exact Inv_disable_client p2 cid ih
    | reset cid _ => exact Inv_reset_client p2 cid ih

/-- C8 witness: the theorem applied to the pool constructed from the config
ids `["a", "b"]`, reachable in zero steps. -/
theorem C8_reachable_invariant_witness :
    ClientPool.Inv (ClientPool.initPool ["a", "b"]) :=
  C8_reachable_invariant _ (ClientPool.Reachable.init ["a", "b"] (by decide) (by decide))
